import Mathlib

/-!
A verification development for the hashing and chunking core of a file
synchronization library (`hashing.rs`, `chunking.rs`).

Bytes are modelled as `Nat` values below 256; byte strings as `List Nat`.
SHA-1 is implemented executably so that the repository's own test vectors
can be checked inside the model.
-/

set_option maxRecDepth 100000

namespace HD

/-- 32-bit left rotation, as used by SHA-1. -/
def rotl32 (x n : Nat) : Nat :=
  ((x <<< n) % 4294967296) ||| (x >>> (32 - n))

/-- SHA-1 round constants. -/
def sha1K (i : Nat) : Nat :=
  if i < 20 then 0x5A827999
  else if i < 40 then 0x6ED9EBA1
  else if i < 60 then 0x8F1BBCDC
  else 0xCA62C1D6

/-- SHA-1 round functions. -/
def sha1F (i b c d : Nat) : Nat :=
  if i < 20 then (b &&& c) ||| ((4294967295 ^^^ b) &&& d)
  else if i < 40 then b ^^^ c ^^^ d
  else if i < 60 then (b &&& c) ||| (b &&& d) ||| (c &&& d)
  else b ^^^ c ^^^ d

/-- One SHA-1 round step applied to the 5-word working state, folded over
the message schedule starting at round `i`. -/
def sha1Rounds : Nat → List Nat → Nat × Nat × Nat × Nat × Nat → Nat × Nat × Nat × Nat × Nat
  | _, [], st => st
  | i, w :: ws, (a, b, c, d, e) =>
    let t := (rotl32 a 5 + sha1F i b c d + e + sha1K i + w) % 4294967296
    sha1Rounds (i + 1) ws (t, a, rotl32 b 30, c, d)

/-- Extend the message schedule `n` more words. The accumulated words are
kept newest-first, so that w[i-3], w[i-8], w[i-14], w[i-16] are at
positions 2, 7, 13, 15. -/
def sha1ExtendN : Nat → List Nat → List Nat
  | 0, ws => ws
  | n + 1, ws =>
    let v := rotl32 ((ws.getD 2 0) ^^^ (ws.getD 7 0) ^^^ (ws.getD 13 0) ^^^ (ws.getD 15 0)) 1
    sha1ExtendN n (v :: ws)

/-- Big-endian 32-bit words from a byte list (length a multiple of 4). -/
def bytesToWords : List Nat → List Nat
  | b0 :: b1 :: b2 :: b3 :: rest =>
    (((b0 * 256 + b1) * 256 + b2) * 256 + b3) :: bytesToWords rest
  | _ => []

/-- Split a word list into 16-word blocks (the words of one 64-byte block). -/
def wordsToBlocks : List Nat → List (List Nat)
  | w0 :: w1 :: w2 :: w3 :: w4 :: w5 :: w6 :: w7 ::
    w8 :: w9 :: w10 :: w11 :: w12 :: w13 :: w14 :: w15 :: rest =>
    [w0, w1, w2, w3, w4, w5, w6, w7, w8, w9, w10, w11, w12, w13, w14, w15] ::
      wordsToBlocks rest
  | _ => []

/-- Compress one block (given as its 16 words) into the SHA-1 state. -/
def sha1Compress (st : Nat × Nat × Nat × Nat × Nat) (block : List Nat) :
    Nat × Nat × Nat × Nat × Nat :=
  let ws := (sha1ExtendN 64 block.reverse).reverse
  let (a, b, c, d, e) := st
  let (a2, b2, c2, d2, e2) := sha1Rounds 0 ws (a, b, c, d, e)
  ((a + a2) % 4294967296, (b + b2) % 4294967296, (c + c2) % 4294967296,
   (d + d2) % 4294967296, (e + e2) % 4294967296)

/-- Compress all blocks of a padded message. -/
def sha1Blocks (st : Nat × Nat × Nat × Nat × Nat) (msg : List Nat) :
    Nat × Nat × Nat × Nat × Nat :=
  (wordsToBlocks (bytesToWords msg)).foldl sha1Compress st

/-- `k` big-endian bytes of `n`. -/
def beBytes : Nat → Nat → List Nat
  | 0, _ => []
  | k + 1, n => beBytes k (n / 256) ++ [n % 256]

/-- SHA-1 padding: append 0x80, zeros to 56 mod 64, then the 64-bit
big-endian bit length. -/
def sha1Pad (msg : List Nat) : List Nat :=
  let l := msg.length
  let zeros := (120 - ((l + 1) % 64)) % 64
  msg ++ 128 :: (List.replicate zeros 0 ++ beBytes 8 (8 * l))

/-- The SHA-1 digest (20 bytes) of a byte list. -/
def sha1M (msg : List Nat) : List Nat :=
  let st := sha1Blocks (0x67452301, 0xEFCDAB89, 0x98BADCFE, 0x10325476, 0xC3D2E1F0) (sha1Pad msg)
  beBytes 4 st.1 ++ beBytes 4 st.2.1 ++ beBytes 4 st.2.2.1 ++
    beBytes 4 st.2.2.2.1 ++ beBytes 4 st.2.2.2.2

/-- The repository's own known vector: SHA-1 of `"abcdef"` (`test_hash_string`). -/
theorem sha1M_abcdef :
    sha1M [97, 98, 99, 100, 101, 102] =
      [0x1f, 0x8a, 0xc1, 0x0f, 0x23, 0xc5, 0xb5, 0xbc, 0x11, 0x67,
       0xbd, 0xa8, 0x4b, 0x83, 0x3e, 0x5c, 0x05, 0x7a, 0x77, 0xd2] := by
  decide

/-! ### An evaluation-friendly variant of the block fold

`sha1BlocksF` is extensionally equal to `sha1Blocks` (both branches of its
`if` are identical); the redundant test forces the intermediate state to
numerals during kernel reduction, which keeps reduction depth bounded when
digests of 4096-byte buffers are computed inside proofs. -/

def sha1BlocksF : Nat × Nat × Nat × Nat × Nat → List (List Nat) → Nat × Nat × Nat × Nat × Nat
  | st, [] => st
  | (a, b, c, d, e), blk :: rest =>
    if a + b + c + d + e = 0 then sha1BlocksF (sha1Compress (a, b, c, d, e) blk) rest
    else sha1BlocksF (sha1Compress (a, b, c, d, e) blk) rest

/-- `sha1M` with the byte length passed explicitly as a numeral. -/
def sha1MF (msg : List Nat) (len : Nat) : List Nat :=
  let padded := msg ++ 128 :: (List.replicate ((120 - ((len + 1) % 64)) % 64) 0 ++ beBytes 8 (8 * len))
  let st := sha1BlocksF (0x67452301, 0xEFCDAB89, 0x98BADCFE, 0x10325476, 0xC3D2E1F0)
    (wordsToBlocks (bytesToWords padded))
  beBytes 4 st.1 ++ beBytes 4 st.2.1 ++ beBytes 4 st.2.2.1 ++
    beBytes 4 st.2.2.2.1 ++ beBytes 4 st.2.2.2.2

theorem sha1BlocksF_eq : ∀ (l : List (List Nat)) (st : Nat × Nat × Nat × Nat × Nat),
    sha1BlocksF st l = l.foldl sha1Compress st := by
  intro l
  induction l with
  | nil => intro st; rfl
  | cons blk rest ih =>
    intro st
    obtain ⟨a, b, c, d, e⟩ := st
    simp only [sha1BlocksF, List.foldl, ite_self, ih]

theorem sha1MF_eq (msg : List Nat) (n : Nat) (h : msg.length = n) : sha1MF msg n = sha1M msg := by
  subst h
  simp only [sha1MF, sha1M, sha1Blocks, sha1Pad, sha1BlocksF_eq]

/-! ### The `Hash` primitive (`hashing.rs`) -/

/-- `Hash::new()`: the all-zero 20-byte digest (`HASH_BYTES = 20`). -/
def zeroHash : List Nat := List.replicate 20 0

/-- `Hash::is_zero_hash`: true iff no byte is non-zero. -/
def is_zero_hash (h : List Nat) : Bool := !(h.any (fun e => e != 0))

/-- `u8::overflowing_add`: wrapping sum and overflow flag. -/
def overflowing_add (a b : Nat) : Nat × Bool := ((a + b) % 256, decide (256 ≤ a + b))

/-- The `carry as u8` conversion. -/
def carryNat : Bool → Nat
  | true => 1
  | false => 0

/-- `carrying_add_u8` from the source: two overflowing additions. -/
def carrying_add_u8 (a b : Nat) (carry : Bool) : Nat × Bool :=
  let (s, c) := overflowing_add a b
  let (d, e) := overflowing_add s (carryNat carry)
  (d, c || e)

/-- The loop of `add_hashes` runs from the last byte toward the first;
this is that loop on the reversed (little-endian-first) byte lists. The
final carry is discarded. -/
def addBytesLE : List Nat → List Nat → Bool → List Nat
  | a :: as, b :: bs, carry =>
    let (s, c) := carrying_add_u8 a b carry
    s :: addBytesLE as bs c
  | _, _, _ => []

/-- `add_hashes`: byte-wise addition with carry from the least-significant
(last) byte toward the most-significant (first) byte. -/
def add_hashes (h1 h2 : List Nat) : List Nat :=
  (addBytesLE h1.reverse h2.reverse false).reverse

/-- A well-formed digest: exactly 20 bytes, each below 256. -/
def validHash (h : List Nat) : Prop := h.length = 20 ∧ ∀ b ∈ h, b < 256

instance validHash.dec (h : List Nat) : Decidable (validHash h) := by
  unfold validHash; infer_instance

/-- The numeric value of a digest read most-significant byte first. -/
def hashToNat (h : List Nat) : Nat := h.foldl (fun acc b => acc * 256 + b) 0

/-- The 20-byte big-endian digest of a numeric value (mod 2^160). -/
def natToHash (n : Nat) : List Nat := beBytes 20 n

/-- The numeric value of a least-significant-byte-first list. -/
def leNat (l : List Nat) : Nat := l.foldr (fun b acc => b + 256 * acc) 0

/-- `k` little-endian bytes of `n`. -/
def leBytes : Nat → Nat → List Nat
  | 0, _ => []
  | k + 1, n => n % 256 :: leBytes k (n / 256)

theorem beBytes_eq_rev : ∀ k n, beBytes k n = (leBytes k n).reverse := by
  intro k
  induction k with
  | zero => intro n; rfl
  | succ k ih => intro n; simp [beBytes, leBytes, ih]

theorem leBytes_length : ∀ k n, (leBytes k n).length = k := by
  intro k
  induction k with
  | zero => intro n; rfl
  | succ k ih => intro n; simp [leBytes, ih]

theorem leBytes_lt : ∀ k n, ∀ b ∈ leBytes k n, b < 256 := by
  intro k
  induction k with
  | zero => intro n b hb; simp [leBytes] at hb
  | succ k ih =>
    intro n b hb
    simp only [leBytes, List.mem_cons] at hb
    rcases hb with h | h
    · omega
    · exact ih _ b h

theorem leBytes_leNat : ∀ l : List Nat, (∀ b ∈ l, b < 256) → leBytes l.length (leNat l) = l := by
  intro l
  induction l with
  | nil => intro _; rfl
  | cons b t ih =>
    intro hl
    have hb : b < 256 := hl b (List.mem_cons_self _ _)
    have h1 : (b + 256 * leNat t) % 256 = b := by omega
    have h2 : (b + 256 * leNat t) / 256 = leNat t := by omega
    simp only [List.length_cons, leBytes, leNat, List.foldr]
    simp only [leNat] at h1 h2 ih
    rw [h1, h2, ih (fun x hx => hl x (List.mem_cons_of_mem _ hx))]

theorem leNat_leBytes : ∀ k n, leNat (leBytes k n) = n % 2 ^ (8 * k) := by
  intro k
  induction k with
  | zero => intro n; simp [leBytes, leNat, Nat.mod_one]
  | succ k ih =>
    intro n
    have hpow : (2 : Nat) ^ (8 * (k + 1)) = 256 * 2 ^ (8 * k) := by ring
    rw [hpow, Nat.mod_mul]
    simp only [leBytes, leNat, List.foldr] at *
    rw [ih]

theorem leNat_cons (b : Nat) (t : List Nat) : leNat (b :: t) = b + 256 * leNat t := rfl

theorem leBytes_mod : ∀ k n, leBytes k (n % 2 ^ (8 * k)) = leBytes k n := by
  intro k
  induction k with
  | zero => intro n; rfl
  | succ k ih =>
    intro n
    have hpow : (2 : Nat) ^ (8 * (k + 1)) = 256 * 2 ^ (8 * k) := by ring
    simp only [leBytes, hpow]
    congr 1
    · rw [Nat.mod_mul]; omega
    · rw [Nat.mod_mul_right_div_self, ih]

theorem leNat_lt : ∀ l : List Nat, (∀ b ∈ l, b < 256) → leNat l < 2 ^ (8 * l.length) := by
  intro l
  induction l with
  | nil => intro _; simp [leNat]
  | cons b t ih =>
    intro hl
    have hb : b < 256 := hl b (List.mem_cons_self _ _)
    have ht := ih (fun x hx => hl x (List.mem_cons_of_mem _ hx))
    have hpow : (2 : Nat) ^ (8 * (t.length + 1)) = 256 * 2 ^ (8 * t.length) := by ring
    simp only [leNat_cons, List.length_cons, hpow]
    omega

theorem hashToNat_eq (h : List Nat) : hashToNat h = leNat h.reverse := by
  induction h using List.reverseRecOn with
  | nil => rfl
  | append_singleton l b ih =>
    have h1 : hashToNat (l ++ [b]) = hashToNat l * 256 + b := by
      simp [hashToNat, List.foldl_append]
    have h2 : leNat ((l ++ [b]).reverse) = b + 256 * leNat l.reverse := by
      simp [leNat]
    rw [h1, h2, ih]; ring

theorem hashToNat_lt (h : List Nat) (hv : validHash h) : hashToNat h < 2 ^ 160 := by
  obtain ⟨hl, hb⟩ := hv
  rw [hashToNat_eq]
  have := leNat_lt h.reverse (fun x hx => hb x (List.mem_reverse.mp hx))
  rwa [List.length_reverse, hl] at this

theorem natToHash_hashToNat (h : List Nat) (hv : validHash h) : natToHash (hashToNat h) = h := by
  obtain ⟨hl, hb⟩ := hv
  have hrl : h.reverse.length = 20 := by rw [List.length_reverse, hl]
  rw [natToHash, beBytes_eq_rev, hashToNat_eq]
  rw [show (20 : Nat) = h.reverse.length from hrl.symm]
  rw [leBytes_leNat h.reverse (fun x hx => hb x (List.mem_reverse.mp hx))]
  exact List.reverse_reverse h

theorem hashToNat_natToHash (n : Nat) : hashToNat (natToHash n) = n % 2 ^ 160 := by
  rw [natToHash, hashToNat_eq, beBytes_eq_rev, List.reverse_reverse, leNat_leBytes]

theorem natToHash_valid (n : Nat) : validHash (natToHash n) := by
  constructor
  · rw [natToHash, beBytes_eq_rev, List.length_reverse, leBytes_length]
  · intro b hb
    rw [natToHash, beBytes_eq_rev] at hb
    exact leBytes_lt 20 n b (List.mem_reverse.mp hb)

theorem carrying_add_u8_eq (a b : Nat) (c : Bool) (ha : a < 256) (hb : b < 256) :
    carrying_add_u8 a b c = ((a + b + carryNat c) % 256, decide (256 ≤ a + b + carryNat c)) := by
  cases c <;>
    simp only [carrying_add_u8, overflowing_add, carryNat, Prod.mk.injEq] <;>
    refine ⟨by omega, ?_⟩ <;>
    · rw [Bool.eq_iff_iff]
      simp only [Bool.or_eq_true, decide_eq_true_eq]
      omega

theorem addBytesLE_spec : ∀ (x y : List Nat) (c : Bool), x.length = y.length →
    (∀ b ∈ x, b < 256) → (∀ b ∈ y, b < 256) →
    addBytesLE x y c = leBytes x.length (leNat x + leNat y + carryNat c) := by
  intro x
  induction x with
  | nil =>
    intro y c hlen _ _
    cases y with
    | nil => rfl
    | cons b bs => simp at hlen
  | cons a as ih =>
    intro y c hlen hx hy
    cases y with
    | nil => simp at hlen
    | cons b bs =>
      have ha : a < 256 := hx a (List.mem_cons_self _ _)
      have hb : b < 256 := hy b (List.mem_cons_self _ _)
      have hlen2 : as.length = bs.length := by simpa using hlen
      simp only [addBytesLE, carrying_add_u8_eq a b c ha hb]
      have hc : carryNat c ≤ 1 := by cases c <;> simp [carryNat]
      have IH := ih bs (decide (256 ≤ a + b + carryNat c)) hlen2
        (fun x hx2 => hx x (List.mem_cons_of_mem _ hx2))
        (fun x hx2 => hy x (List.mem_cons_of_mem _ hx2))
      rw [IH]
      simp only [List.length_cons, leBytes, leNat_cons]
      have hcc : carryNat (decide (256 ≤ a + b + carryNat c)) =
          (a + b + carryNat c) / 256 := by
        rcases Nat.lt_or_ge (a + b + carryNat c) 256 with h | h
        · rw [decide_eq_false (by omega), Nat.div_eq_of_lt h]; rfl
        · rw [decide_eq_true h]
          show 1 = (a + b + carryNat c) / 256
          omega
      congr 1
      · omega
      · congr 1
        rw [hcc]
        omega

theorem add_hashes_eq (a b : List Nat) (ha : validHash a) (hb : validHash b) :
    add_hashes a b = natToHash ((hashToNat a + hashToNat b) % 2 ^ 160) := by
  obtain ⟨hal, hav⟩ := ha
  obtain ⟨hbl, hbv⟩ := hb
  rw [add_hashes, natToHash, beBytes_eq_rev]
  rw [addBytesLE_spec a.reverse b.reverse false
    (by rw [List.length_reverse, List.length_reverse, hal, hbl])
    (fun x hx => hav x (List.mem_reverse.mp hx))
    (fun x hx => hbv x (List.mem_reverse.mp hx))]
  rw [List.length_reverse, hal]
  rw [← hashToNat_eq, ← hashToNat_eq]
  have h160 : (2 : Nat) ^ 160 = 2 ^ (8 * 20) := by norm_num
  rw [h160, leBytes_mod]
  simp [carryNat]

theorem add_hashes_valid (a b : List Nat) (ha : validHash a) (hb : validHash b) :
    validHash (add_hashes a b) := by
  rw [add_hashes_eq a b ha hb]; exact natToHash_valid _

theorem foldl_add_hashes_eq : ∀ (l : List (List Nat)) (acc : List Nat), validHash acc →
    (∀ h ∈ l, validHash h) →
    List.foldl add_hashes acc l = natToHash ((hashToNat acc + (l.map hashToNat).sum) % 2 ^ 160) := by
  intro l
  induction l with
  | nil =>
    intro acc hacc _
    simp only [List.foldl, List.map, List.sum_nil, Nat.add_zero]
    rw [Nat.mod_eq_of_lt (hashToNat_lt acc hacc), natToHash_hashToNat acc hacc]
  | cons h t ih =>
    intro acc hacc hl
    have hh : validHash h := hl h (List.mem_cons_self _ _)
    have ht : ∀ g ∈ t, validHash g := fun g hg => hl g (List.mem_cons_of_mem _ hg)
    simp only [List.foldl, List.map, List.sum_cons]
    rw [ih (add_hashes acc h) (add_hashes_valid acc h hacc hh) ht]
    rw [add_hashes_eq acc h hacc hh, hashToNat_natToHash]
    congr 1
    omega

theorem zeroHash_valid : validHash zeroHash := by decide

/-- C3: the digest combination operator `add_hashes` (byte-wise addition
with carry from the last byte toward the first, overflow past the first
byte discarded) is addition modulo 2^160 on the big-endian values of valid
20-byte digests; it is commutative and associative on valid digests, and
folding any permutation of a list of valid digests from the zero digest
yields the same result. -/
theorem add_hashes_mod_comm_assoc :
    (∀ a b : List Nat, validHash a → validHash b →
      add_hashes a b = natToHash ((hashToNat a + hashToNat b) % 2 ^ 160)) ∧
    (∀ a b : List Nat, validHash a → validHash b → add_hashes a b = add_hashes b a) ∧
    (∀ a b c : List Nat, validHash a → validHash b → validHash c →
      add_hashes (add_hashes a b) c = add_hashes a (add_hashes b c)) ∧
    (∀ l1 l2 : List (List Nat), (∀ h ∈ l1, validHash h) → l1.Perm l2 →
      List.foldl add_hashes zeroHash l1 = List.foldl add_hashes zeroHash l2) := by
  refine ⟨add_hashes_eq, ?_, ?_, ?_⟩
  · intro a b ha hb
    rw [add_hashes_eq a b ha hb, add_hashes_eq b a hb ha, Nat.add_comm]
  · intro a b c ha hb hc
    rw [add_hashes_eq (add_hashes a b) c (add_hashes_valid a b ha hb) hc]
    rw [add_hashes_eq a (add_hashes b c) ha (add_hashes_valid b c hb hc)]
    rw [add_hashes_eq a b ha hb, add_hashes_eq b c hb hc]
    rw [hashToNat_natToHash, hashToNat_natToHash]
    congr 1
    omega
  · intro l1 l2 h1 hp
    have h2 : ∀ h ∈ l2, validHash h := fun h hm => h1 h (hp.mem_iff.mpr hm)
    rw [foldl_add_hashes_eq l1 zeroHash zeroHash_valid h1,
      foldl_add_hashes_eq l2 zeroHash zeroHash_valid h2]
    congr 3
    exact (hp.map hashToNat).sum_eq

/-- Witness for C3 at concrete digests. -/
theorem add_hashes_mod_comm_assoc_witness :
    (add_hashes (List.replicate 19 0 ++ [255]) (List.replicate 19 0 ++ [7]) =
      natToHash ((hashToNat (List.replicate 19 0 ++ [255]) +
        hashToNat (List.replicate 19 0 ++ [7])) % 2 ^ 160)) ∧
    (add_hashes (List.replicate 19 0 ++ [255]) (List.replicate 19 0 ++ [7]) =
      add_hashes (List.replicate 19 0 ++ [7]) (List.replicate 19 0 ++ [255])) ∧
    (List.foldl add_hashes zeroHash [List.replicate 19 0 ++ [255], List.replicate 19 0 ++ [7]] =
      List.foldl add_hashes zeroHash [List.replicate 19 0 ++ [7], List.replicate 19 0 ++ [255]]) := by
  refine ⟨?_, ?_, ?_⟩
  · exact add_hashes_mod_comm_assoc.1 _ _ (by decide) (by decide)
  · exact add_hashes_mod_comm_assoc.2.1 _ _ (by decide) (by decide)
  · exact add_hashes_mod_comm_assoc.2.2.2 _ _ (by decide)
      (List.Perm.swap (List.replicate 19 0 ++ [7]) (List.replicate 19 0 ++ [255]) [])

/-! ### Hex parsing and formatting (`Hash::parse`, `Display for Hash`)

Strings are modelled as their UTF-8 byte lists; `str::len` is the byte
length and the `&sha1[2*i..2*i+2]` slices panic when an index falls on a
UTF-8 continuation byte (not a character boundary). -/

/-- Outcome of `Hash::parse`: a digest, a returned error, or a panic
(raised by byte slicing at a non-boundary index). -/
inductive ParseOutcome where
  | ok (h : List Nat)
  | formatError
  | panicked
deriving DecidableEq

/-- The value of one hex-digit byte (`0-9`, `a-f`, `A-F`), as accepted by
`char::to_digit(16)` inside Rust integer parsing. -/
def hexDigit (c : Nat) : Option Nat :=
  if 48 ≤ c ∧ c ≤ 57 then some (c - 48)
  else if 97 ≤ c ∧ c ≤ 102 then some (c - 87)
  else if 65 ≤ c ∧ c ≤ 70 then some (c - 55)
  else none

/-- Modelled from `u8::from_str_radix(slice, 16)` on a two-byte slice: an
optional leading `+` sign is accepted (a `-` is not, for an unsigned
type), then every remaining byte must be a hex digit. Overflow is
impossible for two hex digits. -/
def from_str_radix2 (a b : Nat) : Option Nat :=
  if a = 43 then hexDigit b
  else
    match hexDigit a, hexDigit b with
    | some x, some y => some (16 * x + y)
    | _, _ => none

/-- A UTF-8 continuation byte; a byte index inside a `str` is a character
boundary iff the byte there is not a continuation byte. -/
def isUtf8Cont (b : Nat) : Bool := decide (128 ≤ b ∧ b < 192)

/-- The loop of `Hash::parse`: for each `i`, slice `&sha1[2*i..2*i+2]`
(panicking if either end is not a character boundary; index `0` and the
total length always are) and parse the pair as a `u8`. -/
def parseGo : Nat → List Nat → List Nat → ParseOutcome
  | i, b0 :: b1 :: rest, acc =>
    if i ≠ 0 ∧ isUtf8Cont b0 then .panicked
    else if (match rest with | r :: _ => isUtf8Cont r | [] => false) then .panicked
    else
      match from_str_radix2 b0 b1 with
      | some v => parseGo (i + 1) rest (acc ++ [v])
      | none => .formatError
  | _, [], acc => .ok acc
  | _, [_], _ => .formatError

/-- `Hash::parse`: 40 bytes required, then 20 two-byte slices. -/
def parse (s : List Nat) : ParseOutcome :=
  if s.length = 40 then parseGo 0 s [] else .formatError

/-- The lower-case hex digit for a value below 16 (`{:02x}`). -/
def hexChar (d : Nat) : Nat := if d < 10 then 48 + d else 87 + d

/-- `Display for Hash`: each byte as two zero-padded lowercase hex
characters, most-significant byte first. -/
def to_hex : List Nat → List Nat
  | [] => []
  | b :: t => hexChar (b / 16) :: hexChar (b % 16) :: to_hex t

/-- The claim-side notion of a hexadecimal digit character. -/
def isHexDigitByte (b : Nat) : Bool := (hexDigit b).isSome

/-- All-pairs parsing: the outcome of `parse` on an ASCII 40-byte string
is determined by parsing consecutive pairs independently. -/
def pairVals : List Nat → Option (List Nat)
  | [] => some []
  | b0 :: b1 :: rest =>
    match from_str_radix2 b0 b1, pairVals rest with
    | some v, some vs => some (v :: vs)
    | _, _ => none
  | [_] => none

theorem parseGo_ascii : ∀ (s : List Nat), (∀ b ∈ s, b < 128) → ∀ (i : Nat) (acc : List Nat),
    parseGo i s acc = (match pairVals s with
      | some vs => ParseOutcome.ok (acc ++ vs)
      | none => ParseOutcome.formatError)
  | [], _, i, acc => by simp [parseGo, pairVals]
  | [b], _, i, acc => by simp [parseGo, pairVals]
  | b0 :: b1 :: rest, h, i, acc => by
    have hc0 : isUtf8Cont b0 = false := by
      have : b0 < 128 := h b0 (by simp)
      simp only [isUtf8Cont, decide_eq_false_iff_not]
      omega
    have hr : ∀ b ∈ rest, b < 128 := fun b hb => h b (by simp [hb])
    have IH := parseGo_ascii rest hr (i + 1)
    cases rest with
    | nil =>
      simp only [parseGo]
      rw [if_neg (by simp [hc0]), if_neg (by simp)]
      rcases hfs : from_str_radix2 b0 b1 with _ | v
      · simp [pairVals, hfs]
      · simp [parseGo, pairVals, hfs]
    | cons r t =>
      have hcr : isUtf8Cont r = false := by
        have : r < 128 := h r (by simp)
        simp only [isUtf8Cont, decide_eq_false_iff_not]
        omega
      simp only [parseGo]
      rw [if_neg (by simp [hc0]), if_neg (by simp [hcr])]
      rcases hfs : from_str_radix2 b0 b1 with _ | v
      · simp [pairVals, hfs]
      · show parseGo (i + 1) (r :: t) (acc ++ [v]) = _
        rw [IH (acc ++ [v])]
        simp only [pairVals, hfs]
        rcases pairVals (r :: t) with _ | vs
        · rfl
        · simp

/-- C5 (amended): `parse` rejects any byte string whose length is not 40;
on 40-byte ASCII input it succeeds with the values of the twenty aligned
pairs exactly when each pair is accepted by Rust `u8` hex parsing (which
also accepts a leading `+`), and fails with the format error otherwise. -/
theorem parse_characterization :
    (∀ s : List Nat, s.length ≠ 40 → parse s = .formatError) ∧
    (∀ s : List Nat, s.length = 40 → (∀ b ∈ s, b < 128) →
      parse s = (match pairVals s with
        | some vs => ParseOutcome.ok vs
        | none => ParseOutcome.formatError)) := by
  constructor
  · intro s hs
    rw [parse, if_neg hs]
  · intro s hs ha
    rw [parse, if_pos hs, parseGo_ascii s ha 0 []]
    rcases pairVals s with _ | vs <;> simp

/-- Witness for C5's amended characterization at concrete inputs. -/
theorem parse_characterization_witness :
    parse [] = .formatError ∧
    parse (List.replicate 40 48) = (match pairVals (List.replicate 40 48) with
      | some vs => ParseOutcome.ok vs
      | none => ParseOutcome.formatError) :=
  ⟨parse_characterization.1 [] (by decide),
   parse_characterization.2 (List.replicate 40 48) (by decide) (by decide)⟩

/-- Counterexample to C5 as stated: a 40-character string of twenty `+1`
pairs contains the non-hex character `+` (byte 43), yet `parse` accepts it
(Rust `u8::from_str_radix` allows a leading `+` in each pair), instead of
failing with the format error the claim requires. -/
theorem parse_plus_counterexample :
    parse ((List.replicate 20 [43, 49]).flatten) = .ok (List.replicate 20 1) ∧
    ((List.replicate 20 [43, 49]).flatten).length = 40 ∧
    43 ∈ (List.replicate 20 [43, 49]).flatten ∧
    isHexDigitByte 43 = false := by decide

theorem to_hex_length : ∀ h : List Nat, (to_hex h).length = 2 * h.length := by
  intro h
  induction h with
  | nil => rfl
  | cons b t ih => simp [to_hex, ih]; omega

theorem to_hex_lt : ∀ h : List Nat, (∀ b ∈ h, b < 256) → ∀ x ∈ to_hex h, x < 128 := by
  intro h
  induction h with
  | nil => intro _ x hx; simp [to_hex] at hx
  | cons b t ih =>
    intro hv x hx
    have hb : b < 256 := hv b (by simp)
    simp only [to_hex, List.mem_cons] at hx
    rcases hx with rfl | rfl | hx
    · unfold hexChar; split <;> omega
    · unfold hexChar; split <;> omega
    · exact ih (fun y hy => hv y (by simp [hy])) x hx

theorem hexChar_ne_plus (d : Nat) : hexChar d ≠ 43 := by
  unfold hexChar; split <;> omega

theorem hexDigit_hexChar : ∀ d : Nat, d < 16 → hexDigit (hexChar d) = some d := by
  decide

theorem pairVals_to_hex : ∀ h : List Nat, (∀ b ∈ h, b < 256) → pairVals (to_hex h) = some h := by
  intro h
  induction h with
  | nil => intro _; rfl
  | cons b t ih =>
    intro hv
    have hb : b < 256 := hv b (by simp)
    have hfs : from_str_radix2 (hexChar (b / 16)) (hexChar (b % 16)) = some b := by
      rw [from_str_radix2, if_neg (hexChar_ne_plus _)]
      rw [hexDigit_hexChar (b / 16) (by omega), hexDigit_hexChar (b % 16) (by omega)]
      simp only [Option.some.injEq]
      omega
    simp only [to_hex, pairVals, hfs, ih (fun x hx => hv x (by simp [hx]))]

/-- C6: for every valid 20-byte digest, `to_hex` renders exactly 40
(lowercase hex) characters and `parse` inverts it exactly. -/
theorem parse_to_hex_roundtrip : ∀ h : List Nat, validHash h →
    (to_hex h).length = 40 ∧ parse (to_hex h) = .ok h := by
  intro h hv
  obtain ⟨hl, hb⟩ := hv
  have hlen : (to_hex h).length = 40 := by rw [to_hex_length, hl]
  refine ⟨hlen, ?_⟩
  rw [parse, if_pos hlen, parseGo_ascii (to_hex h) (to_hex_lt h hb) 0 []]
  rw [pairVals_to_hex h hb]
  simp

/-! ### `HashLevel::collapse` (`hashing.rs`)

The fold of one hash level into the next. The SHA-1 digest function is a
parameter `sha1`, instantiated with `sha1M` for concrete computations.
The `for` loop over `0..self.h.len()` is modelled as a recursion over the
enumerated level. `LEVEL_GROUP = 256`. -/

/-- The body of the `collapse` loop for one position `(i, h)`: a zero
digest is skipped; otherwise `digest(h ++ [i as u8])` is combined into the
running accumulator. -/
def collapseStep (sha1 : List Nat → List Nat) (cur : List Nat) (p : Nat × List Nat) : List Nat :=
  if is_zero_hash p.2 then cur else add_hashes cur (sha1 (p.2 ++ [p.1 % 256]))

/-- The `collapse` loop: at every positive multiple of 256 the running
accumulator is pushed and reset before the position is processed; after
the loop the final accumulator is pushed. -/
def collapseGo (sha1 : List Nat → List Nat) :
    List (Nat × List Nat) → List Nat → List (List Nat) → List (List Nat)
  | [], cur, acc => acc ++ [cur]
  | (i, h) :: t, cur, acc =>
    if i % 256 = 0 ∧ 0 < i then
      collapseGo sha1 t (collapseStep sha1 zeroHash (i, h)) (acc ++ [cur])
    else
      collapseGo sha1 t (collapseStep sha1 cur (i, h)) acc

/-- `HashLevel::collapse`. -/
def collapse (sha1 : List Nat → List Nat) (l : List (List Nat)) : List (List Nat) :=
  collapseGo sha1 l.enum zeroHash []

/-- The specified contribution of one group of up to 256 enumerated
positions: zero digests are skipped, every non-zero digest at position `i`
contributes `sha1(digest ++ [i mod 256])`, and the contributions are
combined into the group accumulator starting from the zero digest. -/
def groupContrib (sha1 : List Nat → List Nat) (e : List (Nat × List Nat)) : List Nat :=
  List.foldl add_hashes zeroHash
    ((e.filter (fun p => !(is_zero_hash p.2))).map (fun p => sha1 (p.2 ++ [p.1 % 256])))

/-- Groups after the first: one digest per 256 positions, starting at
group index `k`. -/
def collapseSpecGroups (sha1 : List Nat → List Nat) : List (List Nat) → Nat → List (List Nat)
  | [], _ => []
  | x :: xs, k =>
    groupContrib sha1 (List.enumFrom (256 * k) ((x :: xs).take 256)) ::
      collapseSpecGroups sha1 ((x :: xs).drop 256) (k + 1)
termination_by l _ => l.length
decreasing_by
  simp only [List.length_drop, List.length_cons]
  omega

/-- The specification-side description of `collapse`: the level is cut
into groups of 256 positions and each group is folded with
`groupContrib`; the first group always yields a digest, even when the
level is empty. -/
def collapseSpec (sha1 : List Nat → List Nat) (l : List (List Nat)) : List (List Nat) :=
  groupContrib sha1 (List.enumFrom 0 (l.take 256)) :: collapseSpecGroups sha1 (l.drop 256) 1

theorem enumFrom_append {α : Type} : ∀ (a b : List α) (n : Nat),
    List.enumFrom n (a ++ b) = List.enumFrom n a ++ List.enumFrom (n + a.length) b := by
  intro a
  induction a with
  | nil => intro b n; simp
  | cons x t ih =>
    intro b n
    simp only [List.cons_append, List.enumFrom, List.length_cons]
    congr 1
    show List.enumFrom (n + 1) (t ++ b) = _
    rw [ih b (n + 1)]
    rw [show n + 1 + t.length = n + (t.length + 1) from by omega]

theorem enumFrom_fst_bound {α : Type} : ∀ (l : List α) (n : Nat), ∀ p ∈ List.enumFrom n l,
    n ≤ p.1 ∧ p.1 < n + l.length := by
  intro l
  induction l with
  | nil => intro n p hp; simp [List.enumFrom] at hp
  | cons x t ih =>
    intro n p hp
    simp only [List.enumFrom, List.mem_cons] at hp
    rcases hp with rfl | hp
    · simp
    · have := ih (n + 1) p hp
      constructor <;> [omega; (simp only [List.length_cons]; omega)]

theorem foldl_collapseStep (sha1 : List Nat → List Nat) :
    ∀ (e : List (Nat × List Nat)) (cur : List Nat),
    List.foldl (collapseStep sha1) cur e =
      List.foldl add_hashes cur
        ((e.filter (fun p => !(is_zero_hash p.2))).map (fun p => sha1 (p.2 ++ [p.1 % 256]))) := by
  intro e
  induction e with
  | nil => intro cur; rfl
  | cons p t ih =>
    intro cur
    by_cases hz : is_zero_hash p.2
    · simp only [List.foldl, List.filter, hz, collapseStep, if_pos hz]
      rw [ih]
      simp [hz]
    · simp only [List.foldl, List.filter, collapseStep, if_neg hz]
      rw [ih]
      simp [hz]

theorem collapseGo_append (sha1 : List Nat → List Nat) :
    ∀ (m rest : List (Nat × List Nat)) (cur : List Nat) (acc : List (List Nat)),
    (∀ p ∈ m, ¬(p.1 % 256 = 0 ∧ 0 < p.1)) →
    collapseGo sha1 (m ++ rest) cur acc =
      collapseGo sha1 rest (List.foldl (collapseStep sha1) cur m) acc := by
  intro m
  induction m with
  | nil => intro rest cur acc _; rfl
  | cons p t ih =>
    intro rest cur acc hm
    obtain ⟨i, h⟩ := p
    simp only [List.cons_append, collapseGo]
    rw [if_neg (hm (i, h) (List.mem_cons_self _ _))]
    exact ih rest (collapseStep sha1 cur (i, h)) acc
      (fun q hq => hm q (List.mem_cons_of_mem _ hq))

theorem collapseGo_groups (sha1 : List Nat → List Nat) :
    ∀ (n : Nat) (l : List (List Nat)), l.length ≤ n → ∀ (k : Nat) (cur : List Nat)
      (acc : List (List Nat)), 1 ≤ k →
    collapseGo sha1 (List.enumFrom (256 * k) l) cur acc =
      acc ++ cur :: collapseSpecGroups sha1 l k := by
  intro n
  induction n with
  | zero =>
    intro l hl k cur acc _
    have : l = [] := List.length_eq_zero.mp (Nat.le_zero.mp hl)
    subst this
    simp [collapseGo, collapseSpecGroups, List.enumFrom]
  | succ n ihn =>
    intro l hl k cur acc hk
    cases l with
    | nil => simp [collapseGo, collapseSpecGroups, List.enumFrom]
    | cons hd tl =>
      simp only [List.enumFrom, collapseGo]
      rw [if_pos ⟨by omega, by omega⟩]
      have henum : List.enumFrom (256 * k + 1) tl =
          List.enumFrom (256 * k + 1) (tl.take 255) ++
            List.enumFrom (256 * k + 1 + (tl.take 255).length) (tl.drop 255) := by
        rw [← enumFrom_append, List.take_append_drop]
      have hnb : ∀ p ∈ List.enumFrom (256 * k + 1) (tl.take 255),
          ¬(p.1 % 256 = 0 ∧ 0 < p.1) := by
        intro p hp
        have hb := enumFrom_fst_bound _ _ p hp
        have hlt : (tl.take 255).length ≤ 255 := by
          simp only [List.length_take]
          omega
        intro ⟨hmod, _⟩
        omega
      rw [henum, collapseGo_append sha1 _ _ _ _ hnb]
      have hstate : List.foldl (collapseStep sha1) (collapseStep sha1 zeroHash (256 * k, hd))
          (List.enumFrom (256 * k + 1) (tl.take 255)) =
          groupContrib sha1 (List.enumFrom (256 * k) ((hd :: tl).take 256)) := by
        rw [groupContrib, ← foldl_collapseStep]
        rfl
      rw [hstate]
      by_cases hend : tl.drop 255 = []
      · rw [hend]
        simp only [List.enumFrom, collapseGo]
        have h256 : (hd :: tl).drop 256 = tl.drop 255 := rfl
        simp only [collapseSpecGroups, h256, hend]
        simp [collapseSpecGroups]
      · have htl : 255 < tl.length := by
          by_contra hc
          exact hend (List.drop_eq_nil_of_le (by omega))
        have htake : (tl.take 255).length = 255 := by
          simp only [List.length_take]
          omega
        rw [htake, show 256 * k + 1 + 255 = 256 * (k + 1) by ring]
        have hdrop_len : (tl.drop 255).length ≤ n := by
          simp only [List.length_drop]
          simp only [List.length_cons] at hl
          omega
        rw [ihn (tl.drop 255) hdrop_len (k + 1)
          (groupContrib sha1 (List.enumFrom (256 * k) ((hd :: tl).take 256))) (acc ++ [cur])
          (by omega)]
        have h256 : (hd :: tl).drop 256 = tl.drop 255 := rfl
        simp only [collapseSpecGroups, h256]
        simp

/-- C8: `collapse` (the fold of one level into the next, used by `chash`
for every level) equals its group-wise specification: the enumerated level
is cut into groups of up to 256 positions; in each group every all-zero
digest is skipped (it contributes nothing and is never hashed), and every
non-zero digest at position `i` contributes `sha1(digest ++ [i mod 256])`
to the group's accumulator, which starts from the zero digest. -/
theorem collapse_eq_spec (sha1 : List Nat → List Nat) (l : List (List Nat)) :
    collapse sha1 l = collapseSpec sha1 l := by
  rw [collapse, collapseSpec]
  have henum : l.enum = List.enumFrom 0 (l.take 256) ++
      List.enumFrom ((l.take 256).length) (l.drop 256) := by
    have h := enumFrom_append (l.take 256) (l.drop 256) 0
    rw [List.take_append_drop] at h
    rw [List.enum_eq_enumFrom, h, Nat.zero_add]
  have hnb : ∀ p ∈ List.enumFrom 0 (l.take 256), ¬(p.1 % 256 = 0 ∧ 0 < p.1) := by
    intro p hp
    have hb := enumFrom_fst_bound _ _ p hp
    have hlt : (l.take 256).length ≤ 256 := by
      simp only [List.length_take]
      omega
    intro ⟨hmod, hpos⟩
    omega
  rw [henum, collapseGo_append sha1 _ _ _ _ hnb, foldl_collapseStep, ← groupContrib]
  by_cases hend : l.drop 256 = []
  · rw [hend]
    simp [collapseGo, collapseSpecGroups, List.enumFrom]
  · have hlen : 256 < l.length := by
      by_contra hc
      exact hend (List.drop_eq_nil_of_le (by omega))
    have htake : (l.take 256).length = 256 := by
      simp only [List.length_take]
      omega
    rw [htake, show (256 : Nat) = 256 * 1 by ring]
    rw [collapseGo_groups sha1 (l.drop 256).length (l.drop 256) le_rfl 1 _ [] (by omega)]
    simp

/-! ### `chash` (`hashing.rs`)

The reader delivers a sequence of `read` results (each of 1 to 4096
bytes; a zero-length read ends the loop). For each result the 4096-byte
stack buffer starts zeroed and receives the bytes read, so a short read
leaves zero padding in place; the whole buffer is hashed when any byte is
non-zero. Levels are then collapsed until one digest remains. -/

/-- The level-0 leaf digest for one `read` result. -/
def chashLeaf (sha1 : List Nat → List Nat) (c : List Nat) : List Nat :=
  let buf := c ++ List.replicate (4096 - c.length) 0
  if buf.any (fun e => e != 0) then sha1 buf else zeroHash

/-- The reading loop of `chash`: one leaf digest per read result. -/
def chashLevel0 (sha1 : List Nat → List Nat) (reads : List (List Nat)) : List (List Nat) :=
  reads.map (chashLeaf sha1)

theorem collapseGo_length (sha1 : List Nat → List Nat) :
    ∀ (e : List (Nat × List Nat)) (cur : List Nat) (acc : List (List Nat)),
    (collapseGo sha1 e cur acc).length =
      acc.length + 1 + (e.filter (fun p => decide (p.1 % 256 = 0 ∧ 0 < p.1))).length := by
  intro e
  induction e with
  | nil => intro cur acc; simp [collapseGo]
  | cons p t ih =>
    intro cur acc
    obtain ⟨i, h⟩ := p
    by_cases hb : i % 256 = 0 ∧ 0 < i
    · simp only [collapseGo, if_pos hb, ih, List.filter, decide_eq_true hb]
      simp only [List.length_append, List.length_cons, List.length_nil]
      omega
    · simp only [collapseGo, if_neg hb, ih, List.filter, decide_eq_false hb]

theorem enumFrom_boundary_count {α : Type} :
    ∀ (l : List α) (i : Nat), 1 ≤ i →
    ((List.enumFrom i l).filter (fun p => decide (p.1 % 256 = 0 ∧ 0 < p.1))).length =
      (i + l.length - 1) / 256 - (i - 1) / 256 := by
  intro l
  induction l with
  | nil => intro i hi; simp [List.enumFrom]
  | cons x t ih =>
    intro i hi
    simp only [List.enumFrom, List.filter]
    by_cases hm : i % 256 = 0
    · rw [decide_eq_true (by omega : i % 256 = 0 ∧ 0 < i)]
      simp only [List.length_cons, ih (i + 1) (by omega)]
      omega
    · rw [decide_eq_false (by omega : ¬(i % 256 = 0 ∧ 0 < i))]
      simp only [List.length_cons, ih (i + 1) (by omega)]
      omega

theorem enum_boundary_count (l : List (List Nat)) :
    ((l.enum).filter (fun p => decide (p.1 % 256 = 0 ∧ 0 < p.1))).length =
      (l.length - 1) / 256 := by
  cases l with
  | nil => simp [List.enum_eq_enumFrom, List.enumFrom]
  | cons x t =>
    rw [show (x :: t).enum = (0, x) :: List.enumFrom 1 t from rfl]
    rw [List.filter_cons, if_neg (by simp)]
    rw [enumFrom_boundary_count t 1 le_rfl]
    simp only [List.length_cons]
    omega

/-- The length of a collapsed level: `⌈n / 256⌉` for a non-empty level of
`n` digests, and still 1 for an empty level. -/
theorem collapse_length (sha1 : List Nat → List Nat) (l : List (List Nat)) :
    (collapse sha1 l).length = (l.length - 1) / 256 + 1 := by
  rw [collapse, collapseGo_length, enum_boundary_count]
  simp only [List.length_nil]
  omega

/-- The folding loop of `chash`: starting from the levels built so far
(whose last level is `cur`), repeatedly push the collapse of the last
level until it holds exactly one digest. An empty level-0 collapses to a
single digest, so in that case the loop pushes once and stops. -/
def buildTree (sha1 : List Nat → List Nat) (levels : List (List (List Nat)))
    (cur : List (List Nat)) : List (List (List Nat)) :=
  if cur.length = 1 then levels
  else if cur.length = 0 then levels ++ [collapse sha1 cur]
  else buildTree sha1 (levels ++ [collapse sha1 cur]) (collapse sha1 cur)
termination_by cur.length
decreasing_by
  rw [collapse_length]
  omega

/-- `chash`: build level 0 from the reads, then fold. -/
def chash (sha1 : List Nat → List Nat) (reads : List (List Nat)) : List (List (List Nat)) :=
  let l0 := chashLevel0 sha1 reads
  buildTree sha1 [l0] l0

/-- `Hashes::top_hash`: the single digest of the last level. -/
def top_hash (t : List (List (List Nat))) : List Nat := (t.getLastD []).headD zeroHash

theorem buildTree_last (sha1 : List Nat → List Nat) :
    ∀ (n : Nat) (cur : List (List Nat)) (levels : List (List (List Nat))),
      cur.length ≤ n → levels.getLast? = some cur →
    buildTree sha1 levels cur ≠ [] ∧
      ((buildTree sha1 levels cur).getLastD []).length = 1 := by
  intro n
  induction n using Nat.strong_induction_on with
  | _ n ih =>
    intro cur levels hn hlast
    have hne : levels ≠ [] := by
      intro hcon
      rw [hcon] at hlast
      simp at hlast
    rw [buildTree]
    by_cases h1 : cur.length = 1
    · rw [if_pos h1]
      refine ⟨hne, ?_⟩
      rw [List.getLastD_eq_getLast?, hlast]
      exact h1
    · rw [if_neg h1]
      by_cases h0 : cur.length = 0
      · rw [if_pos h0]
        refine ⟨by simp, ?_⟩
        rw [List.getLastD_eq_getLast?, List.getLast?_concat]
        simp only [Option.getD_some]
        rw [collapse_length, h0]
      · rw [if_neg h0]
        have hlt : (collapse sha1 cur).length < cur.length := by
          rw [collapse_length]
          omega
        exact ih (n - 1) (by omega) (collapse sha1 cur) (levels ++ [collapse sha1 cur])
          (by omega) (List.getLast?_concat _)

/-- C7: for every sequence of reads, `chash` terminates with a non-empty
tree whose last level holds exactly one digest — including the empty
stream, where the single empty fold still produces one digest — so
`top_hash` is defined for every input. -/
theorem chash_last_level_single (sha1 : List Nat → List Nat) (reads : List (List Nat)) :
    chash sha1 reads ≠ [] ∧ ((chash sha1 reads).getLastD []).length = 1 := by
  rw [chash]
  exact buildTree_last sha1 (chashLevel0 sha1 reads).length (chashLevel0 sha1 reads)
    [chashLevel0 sha1 reads] le_rfl rfl

theorem any_replicate_zero : ∀ k : Nat,
    (List.replicate k (0 : Nat)).any (fun e => e != 0) = false := by
  intro k
  induction k with
  | zero => rfl
  | succ k ih => simp [List.replicate, ih]

/-- C1 (amended): the level-0 leaf digest of every read result `c` is the
zero digest when `c` is all zero, and otherwise the SHA-1 digest of the
whole 4096-byte buffer, i.e. of `c` zero-padded to 4096 bytes — the
short final chunk is hashed with its padding, not as the bytes actually
read. -/
theorem chash_level0_leaves (reads : List (List Nat)) (_hlen : ∀ c ∈ reads, c.length ≤ 4096) :
    chashLevel0 sha1M reads = reads.map (fun c =>
      if c.any (fun e => e != 0) then sha1M (c ++ List.replicate (4096 - c.length) 0)
      else zeroHash) := by
  rw [chashLevel0]
  apply List.map_congr_left
  intro c _
  have hany : (c ++ List.replicate (4096 - c.length) 0).any (fun e => e != 0) =
      c.any (fun e => e != 0) := by
    rw [List.any_append, any_replicate_zero, Bool.or_false]
  simp only [chashLeaf, hany]

/-- Witness for C1's amended statement at a single all-zero read. -/
theorem chash_level0_leaves_witness :
    chashLevel0 sha1M [[0]] = List.map (fun c =>
      if c.any (fun e => e != 0) then sha1M (c ++ List.replicate (4096 - c.length) 0)
      else zeroHash) [[0]] :=
  chash_level0_leaves [[0]] (by decide)

/-- The digest of the buffer holding a single byte 1: computed through the
forcing variant of the block fold. -/
theorem sha1M_block1 :
    sha1M ([1] ++ List.replicate 4095 0) =
      [0, 76, 66, 176, 8, 68, 20, 147, 150, 64, 241, 114, 152, 56, 127,
       155, 239, 164, 120, 102] := by
  rw [← sha1MF_eq ([1] ++ List.replicate 4095 0) 4096
    (by rw [List.length_append, List.length_replicate]; decide)]
  decide

/-- The digest of the buffer holding the two bytes 1, 1. -/
theorem sha1M_block11 :
    sha1M ([1, 1] ++ List.replicate 4094 0) =
      [85, 118, 122, 130, 188, 147, 54, 85, 87, 61, 173, 62, 28, 252, 71,
       149, 207, 113, 150, 37] := by
  rw [← sha1MF_eq ([1, 1] ++ List.replicate 4094 0) 4096
    (by rw [List.length_append, List.length_replicate]; decide)]
  decide

/-- Counterexample to C1 as stated: for the one-byte stream `[1]`, the
level-0 leaf digest is the SHA-1 digest of the zero-padded 4096-byte
buffer, which differs from the SHA-1 digest of the single byte actually
read. -/
theorem chash_leaf_padding_counterexample :
    chashLevel0 sha1M [[1]] = [sha1M ([1] ++ List.replicate 4095 0)] ∧
    sha1M ([1] ++ List.replicate 4095 0) ≠ sha1M [1] := by
  constructor
  · simp only [chashLevel0, List.map, chashLeaf]
    rw [show (4096 - ([1] : List Nat).length) = 4095 from by decide]
    have hc : (([1] ++ List.replicate 4095 0).any fun e => e != 0) = true := rfl
    rw [if_pos hc]
  · rw [sha1M_block1]
    decide

/-- C2 is violated by the code: the same two-byte content `[1, 1]`,
delivered either as one read of two bytes or as two reads of one byte,
produces different content hashes, because each read result is hashed as
its own zero-padded 4096-byte block. -/
theorem buildTree_one (sha1 : List Nat → List Nat) (levels : List (List (List Nat)))
    (x : List Nat) : buildTree sha1 levels [x] = levels := by
  rw [buildTree]
  rw [if_pos (show ([x] : List (List Nat)).length = 1 from rfl)]

theorem buildTree_two (sha1 : List Nat → List Nat) (levels : List (List (List Nat)))
    (x y : List Nat) :
    buildTree sha1 levels [x, y] = levels ++ [collapse sha1 [x, y]] := by
  rw [buildTree]
  rw [if_neg (show ¬([x, y] : List (List Nat)).length = 1 from by simp)]
  rw [if_neg (show ¬([x, y] : List (List Nat)).length = 0 from by simp)]
  have h1 : (collapse sha1 [x, y]).length = 1 := by
    rw [collapse_length]
    norm_num
  obtain ⟨z, hz⟩ := List.length_eq_one.mp h1
  rw [hz, buildTree_one]

theorem chash_read_split_dependent :
    ([[1, 1]] : List (List Nat)).flatten = ([[1], [1]] : List (List Nat)).flatten ∧
    top_hash (chash sha1M [[1, 1]]) ≠ top_hash (chash sha1M [[1], [1]]) := by
  refine ⟨rfl, ?_⟩
  have hl0a : chashLevel0 sha1M [[1, 1]] =
      [[85, 118, 122, 130, 188, 147, 54, 85, 87, 61, 173, 62, 28, 252, 71,
        149, 207, 113, 150, 37]] := by
    simp only [chashLevel0, List.map, chashLeaf]
    rw [show (4096 - ([1, 1] : List Nat).length) = 4094 from by decide]
    have hc : (([1, 1] ++ List.replicate 4094 0).any fun e => e != 0) = true := rfl
    rw [if_pos hc]
    rw [sha1M_block11]
  have hl0b : chashLevel0 sha1M [[1], [1]] =
      [[0, 76, 66, 176, 8, 68, 20, 147, 150, 64, 241, 114, 152, 56, 127,
        155, 239, 164, 120, 102],
       [0, 76, 66, 176, 8, 68, 20, 147, 150, 64, 241, 114, 152, 56, 127,
        155, 239, 164, 120, 102]] := by
    simp only [chashLevel0, List.map, chashLeaf]
    rw [show (4096 - ([1] : List Nat).length) = 4095 from by decide]
    have hc : (([1] ++ List.replicate 4095 0).any fun e => e != 0) = true := rfl
    rw [if_pos hc]
    rw [sha1M_block1]
  have ht1 : chash sha1M [[1, 1]] =
      [[[85, 118, 122, 130, 188, 147, 54, 85, 87, 61, 173, 62, 28, 252, 71,
         149, 207, 113, 150, 37]]] := by
    simp only [chash]
    rw [hl0a, buildTree_one]
  have ht2 : chash sha1M [[1], [1]] =
      [[[0, 76, 66, 176, 8, 68, 20, 147, 150, 64, 241, 114, 152, 56, 127,
         155, 239, 164, 120, 102],
        [0, 76, 66, 176, 8, 68, 20, 147, 150, 64, 241, 114, 152, 56, 127,
         155, 239, 164, 120, 102]],
       collapse sha1M
        [[0, 76, 66, 176, 8, 68, 20, 147, 150, 64, 241, 114, 152, 56, 127,
          155, 239, 164, 120, 102],
         [0, 76, 66, 176, 8, 68, 20, 147, 150, 64, 241, 114, 152, 56, 127,
          155, 239, 164, 120, 102]]] := by
    simp only [chash]
    rw [hl0b, buildTree_two]
    rfl
  rw [ht1, ht2]
  decide

/-- Witness for C6 at the repository's own `"abcdef"` digest. -/
theorem parse_to_hex_roundtrip_witness :
    (to_hex [0x1f, 0x8a, 0xc1, 0x0f, 0x23, 0xc5, 0xb5, 0xbc, 0x11, 0x67,
      0xbd, 0xa8, 0x4b, 0x83, 0x3e, 0x5c, 0x05, 0x7a, 0x77, 0xd2]).length = 40 ∧
    parse (to_hex [0x1f, 0x8a, 0xc1, 0x0f, 0x23, 0xc5, 0xb5, 0xbc, 0x11, 0x67,
      0xbd, 0xa8, 0x4b, 0x83, 0x3e, 0x5c, 0x05, 0x7a, 0x77, 0xd2]) =
      .ok [0x1f, 0x8a, 0xc1, 0x0f, 0x23, 0xc5, 0xb5, 0xbc, 0x11, 0x67,
        0xbd, 0xa8, 0x4b, 0x83, 0x3e, 0x5c, 0x05, 0x7a, 0x77, 0xd2] :=
  parse_to_hex_roundtrip _ (by decide)

/-! ### `Hashes::from_api_hashes` (`hashing.rs`)

Reconstruction of a hash tree from a flat list of `{hash, level, block}`
records (`types::HashedBlock`). Grouping by level with a hash map whose
per-level vectors grow in input order is modelled by `recordsOfLevel`;
the stable `sort_by` on block numbers is modelled by a stable insertion
sort. A missing level in `0..=max_level` is the protocol error, modelled
as `none`. -/

structure HashedBlock (α : Type) where
  hash : α
  level : Nat
  block : Nat

/-- `max_level`: the running maximum of all record levels, starting at 0. -/
def max_level {α : Type} (ah : List (HashedBlock α)) : Nat :=
  ah.foldl (fun m hb => max m hb.level) 0

/-- The `(block, hash)` pairs pushed for level `i`, in input order. -/
def recordsOfLevel {α : Type} (i : Nat) (ah : List (HashedBlock α)) : List (Nat × α) :=
  (ah.filter (fun hb => decide (hb.level = i))).map (fun hb => (hb.block, hb.hash))

/-- The comparison `k.cmp(kk)` used by `sort_by`: by block number. -/
def blockLe {α : Type} (p q : Nat × α) : Prop := p.1 ≤ q.1

instance blockLe.dec {α : Type} : DecidableRel (@blockLe α) := fun p q => Nat.decLe p.1 q.1

instance blockLe.total {α : Type} : IsTotal (Nat × α) blockLe :=
  ⟨fun p q => Nat.le_total p.1 q.1⟩

instance blockLe.trans {α : Type} : IsTrans (Nat × α) blockLe :=
  ⟨fun _ _ _ h1 h2 => Nat.le_trans h1 h2⟩

/-- The `for i in 0..max_level + 1` loop: `n` levels remaining, current
level `i`; a missing level aborts with the protocol error (`none`). -/
def levelsFrom {α : Type} (ah : List (HashedBlock α)) : Nat → Nat → Option (List (List α))
  | 0, _ => some []
  | n + 1, i =>
    let recs := recordsOfLevel i ah
    if recs.isEmpty then none
    else
      match levelsFrom ah n (i + 1) with
      | some rest => some (((List.insertionSort blockLe recs).map Prod.snd) :: rest)
      | none => none

/-- `Hashes::from_api_hashes`. -/
def from_api_hashes {α : Type} (ah : List (HashedBlock α)) : Option (List (List α)) :=
  levelsFrom ah (max_level ah + 1) 0

theorem max_level_ge {α : Type} (ah : List (HashedBlock α)) :
    ∀ hb ∈ ah, hb.level ≤ max_level ah := by
  have H : ∀ (l : List (HashedBlock α)) (m : Nat), ∀ hb ∈ l,
      hb.level ≤ l.foldl (fun m hb => max m hb.level) m := by
    intro l
    induction l with
    | nil => intro m hb hmem; simp at hmem
    | cons x t ih =>
      intro m hb hmem
      have hm : ∀ (m2 : Nat), m2 ≤ t.foldl (fun m hb => max m hb.level) m2 := by
        intro m2
        clear hmem ih hb
        induction t generalizing m2 with
        | nil => exact Nat.le_refl m2
        | cons y t2 ih2 => exact Nat.le_trans (Nat.le_max_left _ _) (ih2 (max m2 y.level))
      rcases List.mem_cons.mp hmem with rfl | hmem2
      · exact Nat.le_trans (Nat.le_max_right m hb.level) (hm (max m hb.level))
      · exact ih (max m x.level) hb hmem2
  exact H ah 0

theorem max_level_attained {α : Type} (ah : List (HashedBlock α)) (hne : ah ≠ []) :
    ∃ hb ∈ ah, hb.level = max_level ah := by
  have H : ∀ (l : List (HashedBlock α)) (m : Nat),
      (∃ hb ∈ l, l.foldl (fun m hb => max m hb.level) m = hb.level) ∨
      l.foldl (fun m hb => max m hb.level) m = m := by
    intro l
    induction l with
    | nil => intro m; right; rfl
    | cons x t ih =>
      intro m
      rcases ih (max m x.level) with ⟨hb, hmem, heq⟩ | heq
      · exact Or.inl ⟨hb, List.mem_cons_of_mem _ hmem, heq⟩
      · rcases Nat.le_total x.level m with hle | hle
        · right
          rw [List.foldl, heq, Nat.max_eq_left hle]
        · left
          exact ⟨x, List.mem_cons_self _ _, by rw [List.foldl, heq, Nat.max_eq_right hle]⟩
  rcases H ah 0 with ⟨hb, hmem, heq⟩ | heq
  · exact ⟨hb, hmem, heq.symm⟩
  · cases ah with
    | nil => exact absurd rfl hne
    | cons x t =>
      refine ⟨x, List.mem_cons_self _ _, Nat.le_antisymm ?_ ?_⟩
      · exact max_level_ge _ x (List.mem_cons_self _ _)
      · have h2 : max_level (x :: t) = 0 := heq
        rw [h2]
        exact Nat.zero_le _

theorem levelsFrom_none_iff {α : Type} (ah : List (HashedBlock α)) :
    ∀ (n i : Nat), levelsFrom ah n i = none ↔
      ∃ j, j < n ∧ recordsOfLevel (i + j) ah = [] := by
  intro n
  induction n with
  | zero =>
    intro i
    constructor
    · intro h; exact absurd h (by simp [levelsFrom])
    · rintro ⟨j, hj, _⟩; omega
  | succ n ih =>
    intro i
    simp only [levelsFrom]
    by_cases hemp : (recordsOfLevel i ah).isEmpty
    · rw [if_pos hemp]
      have : recordsOfLevel i ah = [] := by
        cases h : recordsOfLevel i ah
        · rfl
        · rw [h] at hemp; simp at hemp
      constructor
      · intro _; exact ⟨0, by omega, by rw [Nat.add_zero]; exact this⟩
      · intro _; rfl
    · rw [if_neg hemp]
      have hnonempty : recordsOfLevel i ah ≠ [] := by
        intro h; rw [h] at hemp; simp at hemp
      cases hrec : levelsFrom ah n (i + 1) with
      | some rest =>
        constructor
        · intro h; simp at h
        · rintro ⟨j, hj, hrecs⟩
          cases j with
          | zero => exact absurd (by rw [Nat.add_zero] at hrecs; exact hrecs) hnonempty
          | succ j2 =>
            have : ∃ j, j < n ∧ recordsOfLevel (i + 1 + j) ah = [] :=
              ⟨j2, by omega, by rw [show i + 1 + j2 = i + (j2 + 1) from by omega]; exact hrecs⟩
            rw [(ih (i + 1)).mpr this] at hrec
            exact absurd hrec (by simp)
      | none =>
        obtain ⟨j, hj, hrecs⟩ := (ih (i + 1)).mp hrec
        constructor
        · intro _
          exact ⟨j + 1, by omega, by rw [show i + (j + 1) = i + 1 + j from by omega]; exact hrecs⟩
        · intro _; rfl

theorem levelsFrom_some_spec {α : Type} (ah : List (HashedBlock α)) :
    ∀ (n i : Nat) (ls : List (List α)), levelsFrom ah n i = some ls →
      ls.length = n ∧ ∀ j, j < n →
        ls.getD j [] = (List.insertionSort blockLe (recordsOfLevel (i + j) ah)).map Prod.snd := by
  intro n
  induction n with
  | zero =>
    intro i ls h
    simp only [levelsFrom, Option.some.injEq] at h
    subst h
    exact ⟨rfl, fun j hj => by omega⟩
  | succ n ih =>
    intro i ls h
    simp only [levelsFrom] at h
    by_cases hemp : (recordsOfLevel i ah).isEmpty
    · rw [if_pos hemp] at h; exact absurd h (by simp)
    · rw [if_neg hemp] at h
      cases hrec : levelsFrom ah n (i + 1) with
      | none => rw [hrec] at h; exact absurd h (by simp)
      | some rest =>
        rw [hrec] at h
        simp only [Option.some.injEq] at h
        subst h
        obtain ⟨hlen, hget⟩ := ih (i + 1) rest hrec
        refine ⟨by simp [hlen], ?_⟩
        intro j hj
        cases j with
        | zero => rw [Nat.add_zero]; rfl
        | succ j2 =>
          have := hget j2 (by omega)
          simpa [show i + 1 + j2 = i + (j2 + 1) from by omega] using this

/-- C4: for a non-empty record list, `max_level` is the greatest level
present; `from_api_hashes` fails (with the protocol error) iff some level
in `0..=max_level` has no record; and on success the tree has
`max_level + 1` levels, level `i` being exactly that level's hashes
reordered into ascending block order (a permutation of the level's
records, sorted by block). -/
theorem from_api_hashes_spec {α : Type} (ah : List (HashedBlock α)) (hne : ah ≠ []) :
    (∃ hb ∈ ah, hb.level = max_level ah) ∧ (∀ hb ∈ ah, hb.level ≤ max_level ah) ∧
    (from_api_hashes ah = none ↔ ∃ i, i ≤ max_level ah ∧ recordsOfLevel i ah = []) ∧
    (∀ ls, from_api_hashes ah = some ls →
      ls.length = max_level ah + 1 ∧
      ∀ i, i ≤ max_level ah → ∃ p : List (Nat × α),
        (recordsOfLevel i ah).Perm p ∧ (p.map Prod.fst).Sorted (· ≤ ·) ∧
        ls.getD i [] = p.map Prod.snd) := by
  refine ⟨max_level_attained ah hne, max_level_ge ah, ?_, ?_⟩
  · rw [from_api_hashes, levelsFrom_none_iff]
    constructor
    · rintro ⟨j, hj, hrec⟩
      exact ⟨j, by omega, by rw [Nat.zero_add] at hrec; exact hrec⟩
    · rintro ⟨i, hi, hrec⟩
      exact ⟨i, by omega, by rw [Nat.zero_add]; exact hrec⟩
  · intro ls h
    obtain ⟨hlen, hget⟩ := levelsFrom_some_spec ah (max_level ah + 1) 0 ls h
    refine ⟨hlen, ?_⟩
    intro i hi
    refine ⟨List.insertionSort blockLe (recordsOfLevel i ah), ?_, ?_, ?_⟩
    · exact (List.perm_insertionSort blockLe (recordsOfLevel i ah)).symm
    · have hs := List.sorted_insertionSort blockLe (recordsOfLevel i ah)
      exact List.Pairwise.map Prod.fst (fun a b hab => hab) hs
    · have := hget i (by omega)
      rw [Nat.zero_add] at this
      exact this

/-- Witness for C4 at a two-record input with levels 0 and 1. -/
theorem from_api_hashes_spec_witness :
    (∃ hb ∈ [HashedBlock.mk 5 0 0, HashedBlock.mk 9 1 0],
      hb.level = max_level [HashedBlock.mk 5 0 0, HashedBlock.mk 9 1 0]) ∧
    (∀ hb ∈ [HashedBlock.mk 5 0 0, HashedBlock.mk 9 1 0],
      hb.level ≤ max_level [HashedBlock.mk 5 0 0, HashedBlock.mk 9 1 0]) ∧
    (from_api_hashes [HashedBlock.mk 5 0 0, HashedBlock.mk 9 1 0] = none ↔
      ∃ i, i ≤ max_level [HashedBlock.mk 5 0 0, HashedBlock.mk 9 1 0] ∧
        recordsOfLevel i [HashedBlock.mk 5 0 0, HashedBlock.mk 9 1 0] = []) ∧
    (∀ ls, from_api_hashes [HashedBlock.mk 5 0 0, HashedBlock.mk 9 1 0] = some ls →
      ls.length = max_level [HashedBlock.mk 5 0 0, HashedBlock.mk 9 1 0] + 1 ∧
      ∀ i, i ≤ max_level [HashedBlock.mk 5 0 0, HashedBlock.mk 9 1 0] →
        ∃ p : List (Nat × Nat),
          (recordsOfLevel i [HashedBlock.mk 5 0 0, HashedBlock.mk 9 1 0]).Perm p ∧
          (p.map Prod.fst).Sorted (· ≤ ·) ∧ ls.getD i [] = p.map Prod.snd) :=
  from_api_hashes_spec [HashedBlock.mk 5 0 0, HashedBlock.mk 9 1 0] (List.cons_ne_nil _ _)

/-! ### `find_borders` (`chunking.rs`)

The rolling checksum `RollingDualCrc` is an external crate; it is
abstracted as a state type `σ` with `init` (over the first window),
`roll` (push one byte) and `get32` (the 32-bit fingerprint). -/

/-- The possible outcomes of `find_borders`. `invalidArgument` is the
error the specification prescribes for an oversized mask width; the code
never returns it (it asserts instead). -/
inductive FBResult where
  | ok (borders : List Nat)
  | ioError
  | invalidArgument
  | panicked
deriving DecidableEq

/-- The `while let Ok(b) = r.read_u8()` loop: test the fingerprint of the
current window, record the offset when the masked bits vanish, then roll
the byte in. -/
def fbLoop {σ : Type} (roll : σ → Nat → σ) (get32 : σ → Nat) (mask : Nat) :
    σ → Nat → List Nat → List Nat → List Nat
  | _, _, [], borders => borders
  | st, i, b :: rest, borders =>
    fbLoop roll get32 mask (roll st b) (i + 1) rest
      (if get32 st &&& mask = 0 then borders ++ [i] else borders)

/-- `find_borders`: `assert!(zerobits <= 32)` panics when violated; for
`zerobits = 0` the mask `0xffffffff >> (32 - zerobits)` shifts by 32,
which overflows and panics (checked arithmetic); `read_exact` of the
first window fails with an I/O error when the stream is too short. -/
def find_borders {σ : Type} (init : List Nat → σ) (roll : σ → Nat → σ) (get32 : σ → Nat)
    (stream : List Nat) (window_size zerobits : Nat) : FBResult :=
  if ¬zerobits ≤ 32 then .panicked
  else if zerobits = 0 then .panicked
  else
    let mask := 4294967295 >>> (32 - zerobits)
    if stream.length < window_size then .ioError
    else .ok (fbLoop roll get32 mask (init (stream.take window_size)) window_size
      (stream.drop window_size) [])

theorem fbLoop_spec {σ : Type} (roll : σ → Nat → σ) (get32 : σ → Nat) (mask : Nat) :
    ∀ (rem : List Nat) (st : σ) (i : Nat) (acc : List Nat),
      acc.Sorted (· < ·) → (∀ x ∈ acc, x < i) →
      (fbLoop roll get32 mask st i rem acc).Sorted (· < ·) ∧
      (∀ x ∈ fbLoop roll get32 mask st i rem acc, x ∈ acc ∨ i ≤ x) := by
  intro rem
  induction rem with
  | nil =>
    intro st i acc hs hlt
    exact ⟨hs, fun x hx => Or.inl hx⟩
  | cons b rest ih =>
    intro st i acc hs hlt
    by_cases hmask : get32 st &&& mask = 0
    · have hs2 : (acc ++ [i]).Sorted (· < ·) := by
        rw [List.Sorted, List.pairwise_append]
        exact ⟨hs, List.pairwise_singleton _ _,
          fun a ha b hb => by rw [List.mem_singleton.mp hb]; exact hlt a ha⟩
      have hlt2 : ∀ x ∈ acc ++ [i], x < i + 1 := by
        intro x hx
        rcases List.mem_append.mp hx with h | h
        · exact Nat.lt_succ_of_lt (hlt x h)
        · rw [List.mem_singleton.mp h]; omega
      obtain ⟨hres, hmem⟩ := ih (roll st b) (i + 1) (acc ++ [i]) hs2 hlt2
      rw [fbLoop, if_pos hmask]
      refine ⟨hres, ?_⟩
      intro x hx
      rcases hmem x hx with h | h
      · rcases List.mem_append.mp h with h2 | h2
        · exact Or.inl h2
        · rw [List.mem_singleton.mp h2]; exact Or.inr (Nat.le_refl i)
      · exact Or.inr (by omega)
    · obtain ⟨hres, hmem⟩ := ih (roll st b) (i + 1) acc hs
        (fun x hx => Nat.lt_succ_of_lt (hlt x hx))
      rw [fbLoop, if_neg hmask]
      refine ⟨hres, ?_⟩
      intro x hx
      rcases hmem x hx with h | h
      · exact Or.inl h
      · exact Or.inr (by omega)

/-- C9 (amended): `find_borders` panics on `zerobits > 32` via the
assertion — it returns no `InvalidArgument` error value; the
`zerobits = 0` case panics on the overflowing shift; for
`1 ≤ zerobits ≤ 32` and a stream at least one window long it returns a
strictly ascending list of offsets, each at least the window size. -/
theorem find_borders_spec {σ : Type} (init : List Nat → σ) (roll : σ → Nat → σ)
    (get32 : σ → Nat) (stream : List Nat) (w z : Nat) :
    (32 < z → find_borders init roll get32 stream w z = .panicked) ∧
    (z = 0 → find_borders init roll get32 stream w z = .panicked) ∧
    (1 ≤ z → z ≤ 32 → w ≤ stream.length →
      ∃ l, find_borders init roll get32 stream w z = .ok l ∧
        l.Sorted (· < ·) ∧ ∀ x ∈ l, w ≤ x) := by
  refine ⟨?_, ?_, ?_⟩
  · intro hz
    rw [find_borders, if_pos (by omega)]
  · intro hz
    rw [find_borders, if_neg (by omega), if_pos hz]
  · intro hz1 hz2 hw
    rw [find_borders, if_neg (by omega), if_neg (by omega), if_neg (by omega)]
    refine ⟨_, rfl, ?_, ?_⟩
    · exact (fbLoop_spec roll get32 _ _ _ _ [] (List.sorted_nil) (by simp)).1
    · intro x hx
      rcases (fbLoop_spec roll get32 _ _ _ _ [] (List.sorted_nil) (by simp)).2 x hx with h | h
      · simp at h
      · exact h

/-- Witness for C9 with the trivial rolling checksum. -/
theorem find_borders_spec_witness :
    (find_borders (fun _ : List Nat => ()) (fun _ _ => ()) (fun _ => 0) [0] 1 33 = .panicked) ∧
    (find_borders (fun _ : List Nat => ()) (fun _ _ => ()) (fun _ => 0) [0] 1 0 = .panicked) ∧
    (∃ l, find_borders (fun _ : List Nat => ()) (fun _ _ => ()) (fun _ => 0) [0, 0, 0] 1 1 =
        .ok l ∧ l.Sorted (· < ·) ∧ ∀ x ∈ l, 1 ≤ x) :=
  ⟨(find_borders_spec (fun _ => ()) (fun _ _ => ()) (fun _ => 0) [0] 1 33).1 (by decide),
   (find_borders_spec (fun _ => ()) (fun _ _ => ()) (fun _ => 0) [0] 1 0).2.1 rfl,
   (find_borders_spec (fun _ => ()) (fun _ _ => ()) (fun _ => 0) [0, 0, 0] 1 1).2.2
     (by decide) (by decide) (by decide)⟩

/-- Counterexample to C9 as stated: at mask width 33 the function panics
through the assertion; no `InvalidArgument` error value is returned. -/
theorem find_borders_assert_counterexample :
    find_borders (fun _ : List Nat => ()) (fun _ _ => ()) (fun _ => 0) [] 0 33 =
      FBResult.panicked ∧
    FBResult.panicked ≠ FBResult.invalidArgument := by
  constructor
  · rw [find_borders, if_pos (by omega)]
  · decide

/-! ### `nhash` and `mhash` (`hashing.rs`)

`Path::file_name` is standard-library behaviour, modelled from its
documentation: split the byte path on `/`, drop empty and `.` components,
take the last component; `..` (or no component at all) yields `None`.
`nhash` unwraps that option, so `none` models the panic. -/

/-- Prepend a byte to the first component, or start a new component at `/`. -/
def consHead (b : Nat) : List (List Nat) → List (List Nat)
  | [] => [[]]
  | r :: rs => if b = 47 then [] :: r :: rs else (b :: r) :: rs

/-- Split a byte list on `/` (byte 47). -/
def splitSlash : List Nat → List (List Nat)
  | [] => [[]]
  | b :: t => consHead b (splitSlash t)

/-- Modelled from the documented semantics of `Path::file_name`: the last
path component after dropping empty and `.` components; `None` for a path
ending in `..` or having no components. -/
def lastComp : Option (List Nat) → Option (List Nat)
  | some c => if c = [46, 46] then none else some c
  | none => none

def file_name (p : List Nat) : Option (List Nat) :=
  lastComp ((splitSlash p).filter (fun c => !c.isEmpty && c != [46])).getLast?

/-- `nhash`: SHA-1 of the final path component's bytes; `none` models the
panic of the `unwrap` when there is no final component. -/
def nhash (p : List Nat) : Option (List Nat) :=
  (file_name p).map sha1M

/-- `mhash`: SHA-1 over the `nhash` bytes, the optional size as 8 bytes
little-endian, and the mtime as 8 bytes little-endian two's complement;
`none` when `nhash` panics. -/
def mhash (p : List Nat) (mtime : Int) (size : Option Nat) : Option (List Nat) :=
  (nhash p).map (fun nh =>
    sha1M (nh ++ (match size with | some s => leBytes 8 s | none => []) ++
      leBytes 8 ((mtime % 18446744073709551616).toNat)))

theorem consHead_ne_nil (b : Nat) : ∀ l : List (List Nat), consHead b l ≠ [] := by
  intro l
  cases l with
  | nil => simp [consHead]
  | cons r rs =>
    simp only [consHead]
    by_cases hb : b = 47
    · rw [if_pos hb]; simp
    · rw [if_neg hb]; simp

theorem splitSlash_ne_nil : ∀ l : List Nat, splitSlash l ≠ [] := by
  intro l
  cases l with
  | nil => simp [splitSlash]
  | cons b t => exact consHead_ne_nil b (splitSlash t)

theorem splitSlash_no_slash : ∀ f : List Nat, ¬47 ∈ f → splitSlash f = [f] := by
  intro f
  induction f with
  | nil => intro _; rfl
  | cons b t ih =>
    intro hmem
    have hb : b ≠ 47 := fun h => hmem (by rw [h]; exact List.mem_cons_self _ _)
    have ht : ¬47 ∈ t := fun h => hmem (List.mem_cons_of_mem _ h)
    show consHead b (splitSlash t) = [b :: t]
    rw [ih ht]
    simp only [consHead]
    rw [if_neg hb]

theorem splitSlash_append : ∀ (a b : List Nat),
    splitSlash (a ++ 47 :: b) = splitSlash a ++ splitSlash b := by
  intro a
  induction a with
  | nil =>
    intro b
    show consHead 47 (splitSlash b) = [[]] ++ splitSlash b
    cases h : splitSlash b with
    | nil => exact absurd h (splitSlash_ne_nil b)
    | cons r rs => simp [consHead]
  | cons x a2 ih =>
    intro b
    show consHead x (splitSlash (a2 ++ 47 :: b)) = consHead x (splitSlash a2) ++ splitSlash b
    rw [ih b]
    cases h : splitSlash a2 with
    | nil => exact absurd h (splitSlash_ne_nil a2)
    | cons r rs =>
      simp only [List.cons_append, consHead]
      by_cases hx : x = 47 <;> simp [hx]

theorem filter_keep (f : List Nat) (hne : f ≠ []) (hdot : f ≠ [46]) :
    (!f.isEmpty && f != [46]) = true := by
  cases f with
  | nil => exact absurd rfl hne
  | cons x t =>
    simp [List.isEmpty]
    intro hx ht
    exact hdot (by rw [hx, ht])

theorem file_name_single (f : List Nat) (hne : f ≠ []) (hns : ¬47 ∈ f)
    (hdot : f ≠ [46]) (hdd : f ≠ [46, 46]) : file_name f = some f := by
  rw [file_name, splitSlash_no_slash f hns, List.filter_cons,
    if_pos (filter_keep f hne hdot), List.filter_nil, List.getLast?_singleton]
  simp only [lastComp]
  rw [if_neg hdd]

theorem file_name_dir (d f : List Nat) (hne : f ≠ []) (hns : ¬47 ∈ f)
    (hdot : f ≠ [46]) (hdd : f ≠ [46, 46]) : file_name (d ++ 47 :: f) = some f := by
  rw [file_name, splitSlash_append, List.filter_append, splitSlash_no_slash f hns,
    List.filter_cons, if_pos (filter_keep f hne hdot), List.filter_nil,
    List.getLast?_concat]
  simp only [lastComp]
  rw [if_neg hdd]

/-- C10: `nhash` is partial: any relative single-component name and any
path `dir/name` with a proper final component hash to the SHA-1 digest of
the final component's raw bytes, while the paths `/` and `..` have no
final component and make `nhash` (and hence `mhash`, which calls it)
panic. -/
theorem nhash_partial :
    (∀ f : List Nat, f ≠ [] → ¬47 ∈ f → f ≠ [46] → f ≠ [46, 46] →
      nhash f = some (sha1M f)) ∧
    (∀ d f : List Nat, f ≠ [] → ¬47 ∈ f → f ≠ [46] → f ≠ [46, 46] →
      nhash (d ++ 47 :: f) = some (sha1M f)) ∧
    nhash [47] = none ∧
    nhash [46, 46] = none ∧
    (∀ (p : List Nat) (mtime : Int) (size : Option Nat),
      nhash p = none → mhash p mtime size = none) := by
  refine ⟨?_, ?_, ?_, ?_, ?_⟩
  · intro f hne hns hdot hdd
    rw [nhash, file_name_single f hne hns hdot hdd]
    rfl
  · intro d f hne hns hdot hdd
    rw [nhash, file_name_dir d f hne hns hdot hdd]
    rfl
  · rfl
  · rfl
  · intro p mtime size h
    rw [mhash.eq_def, h]
    rfl

/-- Witness for C10 at the name `"a"` and the path `"d/a"`. -/
theorem nhash_partial_witness :
    nhash [97] = some (sha1M [97]) ∧
    nhash ([100] ++ 47 :: [97]) = some (sha1M [97]) ∧
    mhash [47] 0 none = none := by
  refine ⟨?_, ?_, ?_⟩
  · exact nhash_partial.1 [97] (by decide) (by decide) (by decide) (by decide)
  · exact nhash_partial.2.1 [100] [97] (by decide) (by decide) (by decide) (by decide)
  · exact nhash_partial.2.2.2.2 [47] 0 none nhash_partial.2.2.1

end HD
